import Mathlib

/-!
Verification development for `build.py` of the `custom-resources` repository.

`build.py` discovers custom-resource classes, packages each matching
implementation directory into a ZIP archive, and assembles a CloudFormation
template (one role, one Lambda function, one log group and two exported
outputs per resource).

The definitions below are a shallow embedding of the pure logic of
`build.py`.  Python strings are modelled by Lean `String` (operating on the
underlying `List Char`), Python lists by `List`, and the filesystem objects
the script walks over by explicit tree values that are passed in as inputs.
Effectful library calls (`os.scandir`, `pip.main`, `importlib`) become
oracle parameters recording what the call returned; the string and control
logic of the script itself is translated line by line.
-/

namespace Build

/-! ### Python string primitives used by build.py -/

/-- Python `sep.join(xs)` (`str.join`): concatenation of the elements of
`xs` interleaved with `sep`.  `build.py` uses it at lines 128 (`'.'.join`),
104 and 198 (`'0'.join`). -/
def strJoin (sep : String) : List String → String
  | [] => ""
  | [x] => x
  | x :: y :: xs => x ++ sep ++ strJoin sep (y :: xs)

/-- Python `s.startswith(p)`: `p` is a prefix of `s` (string slicing view of
lines 171 and 173 of `build.py`). -/
def pyStartswith (s p : String) : Bool :=
  p.data.isPrefixOf s.data

/-- Python `s.endswith(p)`: `p` is a suffix of `s`. -/
def pyEndswith (s p : String) : Bool :=
  p.data.reverse.isPrefixOf s.data.reverse

/-- Python `s[n:]`: drop the first `n` characters of `s`. -/
def pyDrop (s : String) (n : Nat) : String :=
  String.mk (s.data.drop n)

/-- POSIX `os.path.join(a, b)` for two arguments: `b` if `b` is absolute;
plain concatenation if `a` is empty or ends with the separator; otherwise
`a + "/" + b`. -/
def ospath_join (a b : String) : String :=
  if pyStartswith b "/" then b
  else if a == "" || pyEndswith a "/" then a ++ b
  else a ++ "/" ++ b

/-- POSIX `os.path.split(p)`: split `p` at its last separator into
`(head, tail)`; the head keeps no trailing separators unless it consists of
separators only. -/
def ospath_split (p : String) : String × String :=
  let r := p.data.reverse
  let tailRev := r.takeWhile (fun c => c != '/')
  let headRev := r.dropWhile (fun c => c != '/')
  let headKept :=
    if headRev.isEmpty || headRev.all (fun c => c == '/') then headRev
    else headRev.dropWhile (fun c => c == '/')
  (String.mk headKept.reverse, String.mk tailRev.reverse)

/-! ### PathCodec (build.py lines 49-66) -/

/-- Loop body of `rec_split_path` (build.py lines 49-55): repeatedly
`os.path.split` the head, pushing each tail onto the front of the
accumulator, until the head is empty.  The Python `while` loop has no
termination guarantee (it loops forever on `"/"`), so the embedding is
fuelled: `none` means the fuel ran out, i.e. the loop did not terminate
within the given number of iterations. -/
def rec_split_path_loop : Nat → String → List String → Option (List String)
  | 0, head, acc => if head.data.isEmpty then some acc else none
  | fuel + 1, head, acc =>
    if head.data.isEmpty then some acc
    else
      let ht := ospath_split head
      rec_split_path_loop fuel ht.1 (ht.2 :: acc)

/-- `rec_split_path(path)` (build.py lines 49-55).  The fuel `path.length`
is sufficient for every relative path, because each iteration strictly
shortens the head (proved below). -/
def rec_split_path (path : String) : Option (List String) :=
  rec_split_path_loop path.length path []

/-- `rec_join_path(path_list)` (build.py lines 58-66): empty list gives
`''`, a singleton is returned unchanged, otherwise the elements are folded
with `os.path.join` from the left. -/
def rec_join_path : List String → String
  | [] => ""
  | [x] => x
  | x :: y :: xs => (y :: xs).foldl ospath_join x

/-! ### CustomResource (build.py lines 69-81) -/

/-- The `CustomResource` descriptor (build.py lines 69-73).  The
`troposphere_class` field is a Python class object, compared and hashed by
identity; it is modelled by an opaque numeric handle. -/
structure CustomResource where
  name : List String
  lambda_path : String
  troposphere_class : Nat
deriving DecidableEq

/-- `CustomResource.__eq__` (build.py lines 75-78): two descriptors are
equal exactly when their `troposphere_class` handles are equal (the
`isinstance` guard always passes inside the typed model). -/
def crEq (a b : CustomResource) : Bool :=
  a.troposphere_class == b.troposphere_class

/-- `CustomResource.__hash__` (build.py lines 80-81): the hash of the class
handle; Python hashes a class by identity, modelled by the handle itself. -/
def crHash (c : CustomResource) : Nat :=
  c.troposphere_class

/-! ### ResourceDiscovery (build.py lines 84-124) -/

/-- Python `set.add` under the `CustomResource` equality above: the element
is appended only when no member of the set already compares equal to it. -/
def setAdd (s : List CustomResource) (c : CustomResource) : List CustomResource :=
  if s.any (fun x => crEq x c) then s else s ++ [c]

/-- One candidate class enumerated during the walk of `class_dir`
(build.py lines 89-116).  The filesystem walk, `importlib` import and
`dir(mod)` enumeration are effectful; this record is the oracle for what
they produced for one candidate: the module location segments
(`rec_split_path(fs_path)`), the file-system path `fs_path` of the module,
the candidate class name, the identity handle of the class object, and the
result of the `os.path.isdir(lambda_code_dir)` test. -/
structure DiscoveredClass where
  module_location : List String
  fs_path : String
  class_name : String
  handle : Nat
  has_lambda_dir : Bool

/-- `defined_custom_resources` (build.py lines 84-124): fold over the
enumerated candidate classes; skip names starting with `_` (line 109);
when the candidate implementation directory
`rec_join_path([lambda_dir, fs_path, class_name])` exists (line 117), add a
`CustomResource` to the result set (lines 118-122). -/
def defined_custom_resources (lambda_dir : String)
    (discovered : List DiscoveredClass) : List CustomResource :=
  discovered.foldl
    (fun acc c =>
      if pyStartswith c.class_name "_" then acc
      else if c.has_lambda_dir then
        setAdd acc
          { name := c.module_location ++ [c.class_name]
          , lambda_path := rec_join_path [lambda_dir, c.fs_path, c.class_name]
          , troposphere_class := c.handle }
      else acc)
    []

/-! ### ArchiveBuilder (build.py lines 127-183) -/

/-- A filesystem tree as seen through `os.scandir`: an entry is either a
regular file or a directory with a list of children. -/
inductive FSTree where
  | file : String → FSTree
  | dir : String → List FSTree → FSTree

/-- The `entry.name` of a scandir entry. -/
def fname : FSTree → String
  | .file n => n
  | .dir n _ => n

mutual
/-- Files written for one worklist entry of the `while` loop of
`create_zip_file` (build.py lines 159-176), given the entry's containing
path `p`: a file contributes its `entry.path`; a directory named
`__pycache__` is dropped without expansion (lines 163-164); any other
directory is replaced by its children (line 166).  The Python worklist is a
set popped in unspecified order; the embedding fixes one deterministic
(depth-first) order, which leaves the set of written files unchanged. -/
def filesUnder (p : String) : FSTree → List String
  | .file n => [ospath_join p n]
  | .dir n cs =>
    if n == "__pycache__" then []
    else filesUnderList (ospath_join p n) cs

/-- `filesUnder` extended over a list of sibling entries. -/
def filesUnderList (p : String) : List FSTree → List String
  | [] => []
  | t :: ts => filesUnder p t ++ filesUnderList p ts
end

/-- Whether a top-level `requirements.txt` entry is present (build.py
lines 142-144). -/
def hasRequirementsTxt (cs : List FSTree) : Bool :=
  cs.any (fun t => fname t == "requirements.txt")

/-- Specification-side transform for the `__pycache__` claim: delete every
directory named `__pycache__`, at any depth, from a list of sibling
entries.  `create_zip_file` is proved to behave as if its input had been
pruned this way. -/
def pruneForest : List FSTree → List FSTree
  | [] => []
  | FSTree.file n :: ts => FSTree.file n :: pruneForest ts
  | FSTree.dir n cs :: ts =>
    if n == "__pycache__" then pruneForest ts
    else FSTree.dir n (pruneForest cs) :: pruneForest ts

/-- The archive path stored for one written file (build.py lines 169-174):
strip the implementation-root `lambda_path` when it is a prefix (plus its
separator), then — only when a manifest was found — strip the
pip target directory `pip_dir` when it is a prefix of the result. -/
def zip_path_of (lambda_path : String) (requirements : Bool) (pip_dir : String)
    (p : String) : String :=
  let z := if pyStartswith p lambda_path then pyDrop p (lambda_path.length + 1) else p
  if requirements && pyStartswith z pip_dir then pyDrop z (pip_dir.length + 1) else z

/-- The pip target directory `output_dir/<dot-joined name>` (build.py
line 151). -/
def pip_dir_of (output_dir : String) (name : List String) : String :=
  ospath_join output_dir (strJoin "." name)

/-- The sequence of archive entries written by `create_zip_file`
(build.py lines 127-183), for an implementation directory `lambda_path`
with immediate children `cs` and — if a `requirements.txt` is among the
children — pip output directory `pip_dir` holding the entries `pipFiles`
(the oracle for what `pip.main` produced at line 152).  The top-level
`requirements.txt` and `test` entries are removed before expansion
(lines 150 and 156); the remaining entries, plus the pip entries, are
expanded as in `filesUnder`, and each file is stored under
`zip_path_of`. -/
def create_zip_entries (lambda_path pip_dir : String)
    (cs pipFiles : List FSTree) : List String :=
  let requirements := hasRequirementsTxt cs
  let kept := cs.filter (fun t => fname t != "requirements.txt" && fname t != "test")
  let implPaths := filesUnderList lambda_path kept
  let pipPaths := if requirements then filesUnderList pip_dir pipFiles else []
  (implPaths ++ pipPaths).map (zip_path_of lambda_path requirements pip_dir)

/-- Execution state of `create_zip_file`: the archive entries written so
far, whether the pip target directory currently exists on disk, and an
optional failure budget (`some k` makes the `k`-th `zip.write` call raise,
modelling an exception during archive writing; `none` means no call
raises). -/
structure ZipState where
  written : List String
  pipDirExists : Bool
  failBudget : Option Nat
deriving DecidableEq

/-- One `zip.write(entry.path, zip_path)` call (build.py line 176); raises
(returns `.error` carrying the state at the raise) when the failure budget
hits zero. -/
def zip_write (p : String) (s : ZipState) : Except ZipState ZipState :=
  match s.failBudget with
  | none => .ok { s with written := s.written ++ [p] }
  | some 0 => .error s
  | some (k + 1) => .ok { s with written := s.written ++ [p], failBudget := some k }

/-- The `while` loop of build.py lines 159-176, writing each staged file in
turn; an exception from `zip.write` propagates immediately. -/
def write_loop : List String → ZipState → Except ZipState ZipState
  | [], s => .ok s
  | p :: ps, s =>
    match zip_write p s with
    | .error e => .error e
    | .ok s' => write_loop ps s'

/-- `pip.main(['install', ...])` (build.py line 152): materialises the pip
target directory. -/
def pip_install (s : ZipState) : ZipState :=
  { s with pipDirExists := true }

/-- `shutil.rmtree(pip_dir)` (build.py line 179): removes the pip target
directory. -/
def rmtree_pip (s : ZipState) : ZipState :=
  { s with pipDirExists := false }

/-- Control flow of `create_zip_file` (build.py lines 127-183) as a
sequential execution: run pip when a manifest is present (lines 148-153),
write every staged file (lines 159-176), and only after the write loop has
finished remove the pip directory (lines 178-179).  An exception raised by
`zip.write` propagates as `.error`, skipping the removal step. -/
def create_zip_file_exec (lambda_path pip_dir : String)
    (cs pipFiles : List FSTree) (failBudget : Option Nat) : Except ZipState ZipState :=
  let requirements := hasRequirementsTxt cs
  let s0 : ZipState := { written := [], pipDirExists := false, failBudget := failBudget }
  let s1 := if requirements then pip_install s0 else s0
  match write_loop (create_zip_entries lambda_path pip_dir cs pipFiles) s1 with
  | .error e => .error e
  | .ok s2 => .ok (if requirements then rmtree_pip s2 else s2)

/-! ### TemplateAssembler (build.py lines 195-242) -/

/-- The flattened CloudFormation name `'0'.join(custom_resource.name)`
(build.py line 198): dots are not allowed in logical ids, so the segments
are joined with the fixed joiner `"0"`. -/
def custom_resource_name_cfn (name : List String) : String :=
  strJoin "0" name

/-- `'.'.join(custom_resource.name)` (build.py lines 128, 219, 227,
237). -/
def dot_joined_resource_name (name : List String) : String :=
  strJoin "." name

/-- What one iteration of the template assembly loop (build.py
lines 195-242) adds for a descriptor: the three resource logical ids, the
log-group name, the two output logical ids and their export names.  A
CloudFormation `Sub` over `AWS::StackName` is embedded as a function from
the stack name to the substituted string. -/
structure AssembledCustomResource where
  roleId : String
  functionId : String
  logsId : String
  logGroupName : String → String
  serviceTokenOutputId : String
  serviceTokenExport : String → String
  roleOutputId : String
  roleExport : String → String

/-- The template assembly loop body (build.py lines 195-242) for one
descriptor name: role resource `<cfn>Role` (line 203), function resource
`<cfn>Function` (line 206), log group `<cfn>Logs` (line 217) with name
`/aws/lambda/<dotted>-<stack>` (line 218), output `<cfn>ServiceToken`
exported as `<stack>-<cfn>ServiceToken` (lines 224-231) and output
`<cfn>Role` exported as `<stack>-<cfn>Role` (lines 234-241). -/
def assemble_custom_resource (name : List String) : AssembledCustomResource :=
  let cfn := custom_resource_name_cfn name
  { roleId := cfn ++ "Role"
  , functionId := cfn ++ "Function"
  , logsId := cfn ++ "Logs"
  , logGroupName := fun stackName =>
      "/aws/lambda/" ++ dot_joined_resource_name name ++ "-" ++ stackName
  , serviceTokenOutputId := cfn ++ "ServiceToken"
  , serviceTokenExport := fun stackName => stackName ++ "-" ++ cfn ++ "ServiceToken"
  , roleOutputId := cfn ++ "Role"
  , roleExport := fun stackName => stackName ++ "-" ++ cfn ++ "Role" }

/-- The logical ids of the resources added by one loop iteration, in the
order of the three `template.add_resource` calls. -/
def added_resource_ids (name : List String) : List String :=
  [(assemble_custom_resource name).roleId,
   (assemble_custom_resource name).functionId,
   (assemble_custom_resource name).logsId]

/-- The logical ids of the outputs added by one loop iteration, in the
order of the two `template.add_output` calls. -/
def added_output_ids (name : List String) : List String :=
  [(assemble_custom_resource name).serviceTokenOutputId,
   (assemble_custom_resource name).roleOutputId]

/-! ## Helper lemmas -/

/-- Two strings with the same character data are equal. -/
theorem string_data_inj {a b : String} (h : a.data = b.data) : a = b := by
  cases a; cases b; simp_all

/-- `List.intercalate` step lemma for a list of at least two chunks. -/
theorem intercalate_cons_cons (sep x y : List Char) (xs : List (List Char)) :
    sep.intercalate (x :: y :: xs) = x ++ sep ++ sep.intercalate (y :: xs) := by
  simp [List.intercalate, List.intersperse]

/-- The character data of `strJoin` is the `List.intercalate` of the
character data of the pieces. -/
theorem strJoin_data (sep : String) :
    ∀ xs : List String, (strJoin sep xs).data = sep.data.intercalate (xs.map String.data)
  | [] => by simp [strJoin, List.intercalate]
  | [x] => by simp [strJoin, List.intercalate]
  | x :: y :: xs => by
    simp [strJoin, String.data_append, strJoin_data sep (y :: xs), intercalate_cons_cons]

/-- Joining dot-free segments with the joiner `"0"` yields a dot-free
string. -/
theorem strJoin_zero_no_dot :
    ∀ xs : List String, (∀ s ∈ xs, '.' ∉ s.data) → '.' ∉ (strJoin "0" xs).data
  | [], _ => by simp [strJoin]
  | [x], h => by simpa [strJoin] using h x (by simp)
  | x :: y :: xs, h => by
    have ih := strJoin_zero_no_dot (y :: xs) (fun s hs => h s (List.mem_cons_of_mem _ hs))
    have hx := h x (List.mem_cons_self _ _)
    simp only [strJoin, String.data_append, List.mem_append]
    rintro ((h1 | h2) | h3)
    · exact hx h1
    · exact absurd h2 (by decide)
    · exact ih h3

/-- Joining `'0'`-free segments with the joiner `"0"` is injective on
non-empty segment lists. -/
theorem strJoin_zero_inj (xs ys : List String) (hxs : xs ≠ []) (hys : ys ≠ [])
    (h0xs : ∀ s ∈ xs, '0' ∉ s.data) (h0ys : ∀ s ∈ ys, '0' ∉ s.data)
    (h : strJoin "0" xs = strJoin "0" ys) : xs = ys := by
  have hd : (strJoin "0" xs).data = (strJoin "0" ys).data := by rw [h]
  rw [strJoin_data, strJoin_data] at hd
  have hdata : ("0" : String).data = ['0'] := rfl
  rw [hdata] at hd
  have hsplit := congrArg (fun l => l.splitOn '0') hd
  simp only at hsplit
  rw [List.splitOn_intercalate (xs.map String.data) '0'
        (by intro l hl; obtain ⟨s, hs, rfl⟩ := List.mem_map.mp hl; exact h0xs s hs)
        (by simpa using hxs),
      List.splitOn_intercalate (ys.map String.data) '0'
        (by intro l hl; obtain ⟨s, hs, rfl⟩ := List.mem_map.mp hl; exact h0ys s hs)
        (by simpa using hys)] at hsplit
  exact List.map_injective_iff.mpr (fun a b hab => string_data_inj hab) hsplit

/-! ## Claims -/

/-- Claim C1 (counterexample): as stated, the claim fails.  The flattening
`'0'.join` (build.py line 198) can produce an identifier that contains a
dot when a segment contains a dot, and it is not injective over arbitrary
distinct segment sequences: `["a", "b"]` and `["a0b"]` flatten to the same
identifier `"a0b"`. -/
theorem claim_C1_counterexample :
    '.' ∈ (custom_resource_name_cfn ["a.b"]).data ∧
    custom_resource_name_cfn ["a", "b"] = custom_resource_name_cfn ["a0b"] ∧
    (["a", "b"] : List String) ≠ ["a0b"] := by
  decide

/-- Claim C1 (amended): for every non-empty segment sequence whose segments
contain no dot, the flattening `'0'.join` (build.py line 198) yields an
identifier containing no dot characters; and the flattening is injective
over distinct non-empty segment sequences whose segments do not contain the
joiner character `'0'`. -/
theorem claim_C1 :
    (∀ xs : List String, xs ≠ [] → (∀ s ∈ xs, '.' ∉ s.data) →
        '.' ∉ (custom_resource_name_cfn xs).data) ∧
    (∀ xs ys : List String, xs ≠ [] → ys ≠ [] →
        (∀ s ∈ xs, '0' ∉ s.data) → (∀ s ∈ ys, '0' ∉ s.data) →
        custom_resource_name_cfn xs = custom_resource_name_cfn ys → xs = ys) := by
  constructor
  · intro xs _ hdot
    exact strJoin_zero_no_dot xs hdot
  · intro xs ys hxs hys h0xs h0ys h
    exact strJoin_zero_inj xs ys hxs hys h0xs h0ys h

/-- Claim C1 witness: the amended statement applied at concrete inputs. -/
theorem claim_C1_witness :
    '.' ∉ (custom_resource_name_cfn ["net", "dns", "Zone"]).data ∧
    (["net", "dns", "Zone"] : List String) = ["net", "dns", "Zone"] :=
  ⟨claim_C1.1 ["net", "dns", "Zone"] (by decide) (by decide),
   claim_C1.2 ["net", "dns", "Zone"] ["net", "dns", "Zone"]
     (by decide) (by decide) (by decide) (by decide) rfl⟩

/-- Claim C2: for a descriptor named `["net", "dns", "Zone"]`, one
iteration of the template assembly loop (build.py lines 195-242) adds
exactly the resources `net0dns0ZoneRole`, `net0dns0ZoneFunction`,
`net0dns0ZoneLogs` and the two outputs `net0dns0ZoneServiceToken` and
`net0dns0ZoneRole`, exported under the stack name joined by `'-'` with
`net0dns0ZoneServiceToken` and `net0dns0ZoneRole` respectively. -/
theorem claim_C2 :
    added_resource_ids ["net", "dns", "Zone"] =
      ["net0dns0ZoneRole", "net0dns0ZoneFunction", "net0dns0ZoneLogs"] ∧
    added_output_ids ["net", "dns", "Zone"] =
      ["net0dns0ZoneServiceToken", "net0dns0ZoneRole"] ∧
    (∀ stackName : String,
      (assemble_custom_resource ["net", "dns", "Zone"]).serviceTokenExport stackName =
        stackName ++ "-net0dns0ZoneServiceToken" ∧
      (assemble_custom_resource ["net", "dns", "Zone"]).roleExport stackName =
        stackName ++ "-net0dns0ZoneRole") := by
  refine ⟨by decide, by decide, fun stackName => ⟨?_, ?_⟩⟩
  · apply string_data_inj
    simp [assemble_custom_resource, String.data_append, custom_resource_name_cfn, strJoin]
  · apply string_data_inj
    simp [assemble_custom_resource, String.data_append, custom_resource_name_cfn, strJoin]

/-- Claim C8: two `CustomResource` descriptors compare equal exactly when
their `troposphere_class` handles are equal (build.py lines 75-78),
regardless of `name` and `lambda_path`; and descriptors with equal
`troposphere_class` have equal hash (build.py lines 80-81). -/
theorem claim_C8 :
    ∀ a b : CustomResource,
      (crEq a b = true ↔ a.troposphere_class = b.troposphere_class) ∧
      (a.troposphere_class = b.troposphere_class → crHash a = crHash b) := by
  intro a b
  constructor
  · simp [crEq]
  · intro h
    simp [crHash, h]

/-- Claim C8 witness: the theorem applied to two descriptors sharing the
class handle `7` but differing in `name` and `lambda_path`. -/
theorem claim_C8_witness :
    crEq ⟨["a"], "pa", 7⟩ ⟨["b"], "pb", 7⟩ = true ∧
    crHash ⟨["a"], "pa", 7⟩ = crHash ⟨["b"], "pb", 7⟩ :=
  ⟨(claim_C8 ⟨["a"], "pa", 7⟩ ⟨["b"], "pb", 7⟩).1.mpr rfl,
   (claim_C8 ⟨["a"], "pa", 7⟩ ⟨["b"], "pb", 7⟩).2 rfl⟩

/-- Claim C6: a top-level entry that is a directory named `test` is removed
from the staging set before expansion (build.py lines 145-146 and
155-156), so no file below it reaches the archive: the produced entry list
is the one of the directory without the `test` subtree. -/
theorem claim_C6 :
    ∀ (lambda_path pip_dir : String) (pipFiles pre post ts : List FSTree),
      create_zip_entries lambda_path pip_dir (pre ++ FSTree.dir "test" ts :: post) pipFiles =
        create_zip_entries lambda_path pip_dir (pre ++ post) pipFiles := by
  intro lp pd pf pre post ts
  simp [create_zip_entries, hasRequirementsTxt, fname, List.filter_append]

/-- A `zip.write` call that raises leaves the state unchanged: the error
value is the input state. -/
theorem zip_write_error_eq (p : String) (s e : ZipState)
    (h : zip_write p s = .error e) : e = s := by
  unfold zip_write at h
  split at h
  · cases h
  · cases h; rfl
  · cases h

/-- A successful `zip.write` call does not touch the pip directory. -/
theorem zip_write_ok_pip (p : String) (s s' : ZipState)
    (h : zip_write p s = .ok s') : s'.pipDirExists = s.pipDirExists := by
  unfold zip_write at h
  split at h
  · cases h; rfl
  · cases h
  · cases h; rfl

/-- With no failure budget, `zip.write` succeeds and appends the entry. -/
theorem zip_write_none (p : String) (s : ZipState) (h : s.failBudget = none) :
    zip_write p s = .ok { s with written := s.written ++ [p] } := by
  simp [zip_write, h]

/-- If the write loop raises, the error state has the pip-directory status
the loop started with. -/
theorem write_loop_error_pip :
    ∀ (ps : List String) (s e : ZipState),
      write_loop ps s = .error e → e.pipDirExists = s.pipDirExists
  | [], s, e => by
    intro h
    exact absurd h (by simp [write_loop])
  | p :: ps, s, e => by
    intro h
    rw [write_loop] at h
    cases hw : zip_write p s with
    | error e' =>
      rw [hw] at h
      injection h with h2
      subst h2
      rw [zip_write_error_eq p s e' hw]
    | ok s0 =>
      rw [hw] at h
      rw [write_loop_error_pip ps s0 e h, zip_write_ok_pip p s s0 hw]

/-- If the write loop succeeds, the final state has the pip-directory
status the loop started with. -/
theorem write_loop_ok_pip :
    ∀ (ps : List String) (s s' : ZipState),
      write_loop ps s = .ok s' → s'.pipDirExists = s.pipDirExists
  | [], s, s' => by
    intro h
    rw [write_loop] at h
    injection h with h2
    subst h2
    rfl
  | p :: ps, s, s' => by
    intro h
    rw [write_loop] at h
    cases hw : zip_write p s with
    | error e' =>
      rw [hw] at h
      cases h
    | ok s0 =>
      rw [hw] at h
      rw [write_loop_ok_pip ps s0 s' h, zip_write_ok_pip p s s0 hw]

/-- With no failure budget the write loop never raises. -/
theorem write_loop_none :
    ∀ (ps : List String) (s : ZipState), s.failBudget = none →
      ∃ s', write_loop ps s = .ok s'
  | [], s => fun _ => ⟨s, rfl⟩
  | p :: ps, s => by
    intro h
    obtain ⟨s', hs'⟩ :=
      write_loop_none ps { s with written := s.written ++ [p] } (by simp [h])
    exact ⟨s', by simp only [write_loop, zip_write_none p s h, hs']⟩

/-- Claim C7: when a `requirements.txt` manifest is present, a successful
run of `create_zip_file` ends with the temporary pip directory removed
(build.py lines 178-179 run after the write loop); but when `zip.write`
raises after dependency resolution succeeded, the exception propagates
before the removal step, so the error state still has the pip directory on
disk. -/
theorem claim_C7 :
    ∀ (lambda_path pip_dir : String) (cs pipFiles : List FSTree),
      hasRequirementsTxt cs = true →
      ((∃ s, create_zip_file_exec lambda_path pip_dir cs pipFiles none = .ok s ∧
          s.pipDirExists = false) ∧
       (∀ (failBudget : Option Nat) (e : ZipState),
          create_zip_file_exec lambda_path pip_dir cs pipFiles failBudget = .error e →
          e.pipDirExists = true)) := by
  intro lp pd cs pf hreq
  constructor
  · obtain ⟨s', hw⟩ := write_loop_none (create_zip_entries lp pd cs pf)
      (pip_install { written := [], pipDirExists := false, failBudget := none }) rfl
    refine ⟨rmtree_pip s', ?_, rfl⟩
    simp only [create_zip_file_exec, hreq, if_true, hw]
  · intro fb e he
    simp only [create_zip_file_exec, hreq, if_true] at he
    cases hw : write_loop (create_zip_entries lp pd cs pf)
        (pip_install { written := [], pipDirExists := false, failBudget := fb }) with
    | error e' =>
      rw [hw] at he
      injection he with h2
      subst h2
      rw [write_loop_error_pip _ _ _ hw]
      rfl
    | ok s2 =>
      rw [hw] at he
      cases he

/-- Claim C7 witness: with a manifest present, the successful run removes
the pip directory, and the run whose second write raises leaves an error
state in which the pip directory still exists. -/
theorem claim_C7_witness :
    (∃ s, create_zip_file_exec "L" "P"
        [FSTree.file "a.txt", FSTree.file "requirements.txt"]
        [FSTree.file "six.py"] none = .ok s ∧ s.pipDirExists = false) ∧
    ({ written := ["a.txt"], pipDirExists := true, failBudget := some 0 } : ZipState).pipDirExists
      = true :=
  ⟨(claim_C7 "L" "P" [FSTree.file "a.txt", FSTree.file "requirements.txt"]
      [FSTree.file "six.py"] (by decide)).1,
   (claim_C7 "L" "P" [FSTree.file "a.txt", FSTree.file "requirements.txt"]
      [FSTree.file "six.py"] (by decide)).2 (some 1)
      { written := ["a.txt"], pipDirExists := true, failBudget := some 0 } rfl⟩

/-- `setAdd` preserves pairwise distinctness of the class handles. -/
theorem setAdd_pairwise (s : List CustomResource)
    (hs : ∀ x ∈ s, ∀ y ∈ s, x ≠ y → x.troposphere_class ≠ y.troposphere_class)
    (c : CustomResource) :
    ∀ x ∈ setAdd s c, ∀ y ∈ setAdd s c,
      x ≠ y → x.troposphere_class ≠ y.troposphere_class := by
  unfold setAdd
  by_cases hany : s.any (fun x => crEq x c) = true
  · simpa [hany] using hs
  · have hfresh : ∀ x ∈ s, x.troposphere_class ≠ c.troposphere_class := by
      intro x hx
      simp only [List.any_eq_true, not_exists, not_and] at hany
      have := hany x hx
      simpa [crEq] using this
    simp only [hany, if_false, Bool.false_eq_true]
    intro x hx y hy hxy
    rcases List.mem_append.mp hx with hx' | hx' <;>
      rcases List.mem_append.mp hy with hy' | hy'
    · exact hs x hx' y hy' hxy
    · have : y = c := by simpa using hy'
      subst this
      exact hfresh x hx'
    · have : x = c := by simpa using hx'
      subst this
      exact fun hcl => hfresh y hy' hcl.symm
    · have h1 : x = c := by simpa using hx'
      have h2 : y = c := by simpa using hy'
      subst h1; subst h2
      exact absurd rfl hxy

/-- The discovery fold preserves pairwise distinctness of class handles. -/
theorem defined_custom_resources_aux (lambda_dir : String) :
    ∀ (ds : List DiscoveredClass) (acc : List CustomResource),
      (∀ x ∈ acc, ∀ y ∈ acc, x ≠ y → x.troposphere_class ≠ y.troposphere_class) →
      ∀ x ∈ ds.foldl
          (fun acc c =>
            if pyStartswith c.class_name "_" then acc
            else if c.has_lambda_dir then
              setAdd acc
                { name := c.module_location ++ [c.class_name]
                , lambda_path := rec_join_path [lambda_dir, c.fs_path, c.class_name]
                , troposphere_class := c.handle }
            else acc) acc,
        ∀ y ∈ ds.foldl
          (fun acc c =>
            if pyStartswith c.class_name "_" then acc
            else if c.has_lambda_dir then
              setAdd acc
                { name := c.module_location ++ [c.class_name]
                , lambda_path := rec_join_path [lambda_dir, c.fs_path, c.class_name]
                , troposphere_class := c.handle }
            else acc) acc,
          x ≠ y → x.troposphere_class ≠ y.troposphere_class
  | [], acc => fun hacc => hacc
  | d :: ds, acc => by
    intro hacc
    rw [List.foldl_cons]
    apply defined_custom_resources_aux lambda_dir ds
    by_cases h1 : pyStartswith d.class_name "_" = true
    · simpa [h1] using hacc
    · by_cases h2 : d.has_lambda_dir = true
      · simpa [h1, h2] using setAdd_pairwise acc hacc _
      · simpa [h1, h2] using hacc

/-- Claim C9: the set returned by `defined_custom_resources` (build.py
lines 84-124) never contains two distinct descriptors with equal
`troposphere_class`: set membership is governed by the handle-based
equality of `CustomResource`, so a second descriptor with an
already-present handle is not added. -/
theorem claim_C9 :
    ∀ (lambda_dir : String) (discovered : List DiscoveredClass),
      ∀ d1 ∈ defined_custom_resources lambda_dir discovered,
      ∀ d2 ∈ defined_custom_resources lambda_dir discovered,
        d1 ≠ d2 → d1.troposphere_class ≠ d2.troposphere_class := by
  intro lambda_dir discovered
  exact defined_custom_resources_aux lambda_dir discovered [] (by simp)

/-- `fname` of a file entry. -/
theorem fname_file (n : String) : fname (FSTree.file n) = n := rfl

/-- `fname` of a directory entry. -/
theorem fname_dir (n : String) (cs : List FSTree) : fname (FSTree.dir n cs) = n := rfl

/-- Deleting `__pycache__` directories everywhere does not change the set
of files the expansion loop writes: the loop never descends into them. -/
theorem filesUnderList_pruneForest :
    ∀ (l : List FSTree) (p : String),
      filesUnderList p (pruneForest l) = filesUnderList p l
  | [], _ => by simp [pruneForest]
  | FSTree.file n :: ts, p => by
    simp [pruneForest, filesUnderList, filesUnder, filesUnderList_pruneForest ts p]
  | FSTree.dir n cs :: ts, p => by
    by_cases hn : (n == "__pycache__") = true
    · simp [pruneForest, hn, filesUnderList, filesUnder,
        filesUnderList_pruneForest ts p]
    · simp [pruneForest, hn, filesUnderList, filesUnder,
        filesUnderList_pruneForest cs (ospath_join p n), filesUnderList_pruneForest ts p]

/-- Pruning `__pycache__` directories does not affect the presence of a
top-level `requirements.txt` entry. -/
theorem hasRequirementsTxt_pruneForest :
    ∀ l : List FSTree, hasRequirementsTxt (pruneForest l) = hasRequirementsTxt l
  | [] => by simp [pruneForest]
  | FSTree.file n :: ts => by
    have ih := hasRequirementsTxt_pruneForest ts
    simp only [hasRequirementsTxt] at ih ⊢
    simp only [pruneForest, List.any_cons, ih]
  | FSTree.dir n cs :: ts => by
    have ih := hasRequirementsTxt_pruneForest ts
    simp only [hasRequirementsTxt] at ih ⊢
    by_cases hn : (n == "__pycache__") = true
    · have hn' : n = "__pycache__" := by simpa using hn
      subst hn'
      simp [pruneForest, List.any_cons, fname_dir, ih]
    · simp [pruneForest, hn, List.any_cons, fname_dir, ih]

/-- Pruning commutes with the top-level removal of `requirements.txt` and
`test`. -/
theorem pruneForest_filter :
    ∀ l : List FSTree,
      pruneForest (l.filter (fun t => fname t != "requirements.txt" && fname t != "test")) =
        (pruneForest l).filter
          (fun t => fname t != "requirements.txt" && fname t != "test")
  | [] => by simp [pruneForest]
  | FSTree.file n :: ts => by
    have ih := pruneForest_filter ts
    by_cases hp : ((n != "requirements.txt") && (n != "test")) = true
    · simp [List.filter_cons, fname_file, hp, pruneForest, ih]
    · simp [List.filter_cons, fname_file, hp, pruneForest, ih]
  | FSTree.dir n cs :: ts => by
    have ih := pruneForest_filter ts
    by_cases hn : (n == "__pycache__") = true
    · have hn' : n = "__pycache__" := by simpa using hn
      subst hn'
      simp [List.filter_cons, fname_dir, pruneForest, ih]
    · by_cases hp : ((n != "requirements.txt") && (n != "test")) = true
      · simp [List.filter_cons, fname_dir, hp, hn, pruneForest, ih]
      · simp [List.filter_cons, fname_dir, hp, hn, pruneForest, ih]

/-- Claim C5: a directory named exactly `__pycache__`, top-level or nested
at any depth, is dropped without expansion by the worklist loop of
`create_zip_file` (build.py lines 162-164): the loop writes no file below
such a directory, i.e. the produced entry list equals the one obtained
from the tree with every `__pycache__` subtree deleted. -/
theorem claim_C5 :
    (∀ (p : String) (cs' : List FSTree),
      filesUnder p (FSTree.dir "__pycache__" cs') = []) ∧
    (∀ (lambda_path pip_dir : String) (cs pipFiles : List FSTree),
      create_zip_entries lambda_path pip_dir (pruneForest cs) (pruneForest pipFiles) =
        create_zip_entries lambda_path pip_dir cs pipFiles) := by
  constructor
  · intro p cs'
    simp [filesUnder]
  · intro lp pd cs pf
    simp only [create_zip_entries, hasRequirementsTxt_pruneForest, ← pruneForest_filter,
      filesUnderList_pruneForest]

/-- A list is a `isPrefixOf` itself extended by anything. -/
theorem isPrefixOf_self_append (l r : List Char) : l.isPrefixOf (l ++ r) = true := by
  induction l with
  | nil => simp [List.isPrefixOf]
  | cons a as ih => simp [List.isPrefixOf, ih]

/-- `getLast?` of an append with a non-empty right part. -/
theorem getLast?_append_right (l₁ l₂ : List Char) (h : l₂ ≠ []) :
    (l₁ ++ l₂).getLast? = l₂.getLast? := by
  rw [List.getLast?_append, List.getLast?_eq_getLast_of_ne_nil h]
  rfl

/-- Appending to a non-empty string gives a non-empty string. -/
theorem append_ne_empty_right (s t : String) (h : t ≠ "") : s ++ t ≠ "" := by
  intro he
  apply h
  have hd := congrArg String.data he
  rw [String.data_append] at hd
  rcases List.append_eq_nil.mp hd with ⟨_, h2⟩
  exact string_data_inj (by rw [h2])

/-- `s.endswith('/')` holds exactly when the last character is `'/'`. -/
theorem pyEndswith_slash_iff (s : String) :
    pyEndswith s "/" = true ↔ s.data.getLast? = some '/' := by
  show (['/'].isPrefixOf s.data.reverse) = true ↔ s.data.getLast? = some '/'
  rw [← List.head?_reverse]
  generalize s.data.reverse = l
  cases l with
  | nil => simp
  | cons c cs =>
    rw [List.isPrefixOf_cons₂]
    simp only [List.isPrefixOf_nil_left, Bool.and_true, beq_iff_eq, List.head?_cons,
      Option.some.injEq]
    exact eq_comm

/-- `s.startswith('/')` holds exactly when the first character is `'/'`. -/
theorem pyStartswith_slash_iff (s : String) :
    pyStartswith s "/" = true ↔ s.data.head? = some '/' := by
  show (['/'].isPrefixOf s.data) = true ↔ s.data.head? = some '/'
  generalize s.data = l
  cases l with
  | nil => simp
  | cons c cs =>
    rw [List.isPrefixOf_cons₂]
    simp only [List.isPrefixOf_nil_left, Bool.and_true, beq_iff_eq, List.head?_cons,
      Option.some.injEq]
    exact eq_comm

/-- A string starts with itself extended by a separator and more. -/
theorem pyStartswith_concat_slash (s t : String) :
    pyStartswith (s ++ "/" ++ t) s = true := by
  show s.data.isPrefixOf ((s ++ "/") ++ t).data = true
  rw [String.data_append, String.data_append, List.append_assoc]
  exact isPrefixOf_self_append s.data (("/" : String).data ++ t.data)

/-- Dropping the root plus the separator from `root ++ "/" ++ t` leaves
`t`. -/
theorem pyDrop_concat_slash (s t : String) :
    pyDrop (s ++ "/" ++ t) (s.length + 1) = t := by
  show String.mk (((s.data ++ ['/']) ++ t.data).drop (s.data.length + 1)) = t
  rw [show s.data.length + 1 = (s.data ++ ['/']).length from by simp]
  rw [List.drop_left]

/-- `os.path.join` concatenates with a separator in the regular case: the
left part is non-empty and does not end with the separator, the right part
does not start with it. -/
theorem ospath_join_concat (a b : String) (ha : a ≠ "")
    (ha2 : pyEndswith a "/" = false) (hb : pyStartswith b "/" = false) :
    ospath_join a b = a ++ "/" ++ b := by
  have ha' : (a == "") = false := by simp [ha]
  simp [ospath_join, hb, ha2, ha']

/-- With no manifest, the stored archive path of a file under the
implementation root is its root-relative path. -/
theorem zip_path_of_noreq_concat (lp pd t : String) :
    zip_path_of lp false pd (lp ++ "/" ++ t) = t := by
  simp [zip_path_of, pyStartswith_concat_slash, pyDrop_concat_slash]

/-- Claim C3: for an implementation directory holding exactly the files
`a.txt` and `sub/b.txt` and no dependency manifest, `create_zip_file`
(build.py lines 127-183) produces exactly the archive entries `a.txt` and
`sub/b.txt`, each stored path being the file path with the
implementation-root prefix stripped.  The root is an arbitrary well-formed
directory path: non-empty and without a trailing separator. -/
theorem claim_C3 :
    ∀ (lambda_path pip_dir : String) (pipFiles : List FSTree),
      lambda_path ≠ "" → pyEndswith lambda_path "/" = false →
      create_zip_entries lambda_path pip_dir
        [FSTree.file "a.txt", FSTree.dir "sub" [FSTree.file "b.txt"]] pipFiles =
        ["a.txt", "sub/b.txt"] := by
  intro lp pd pf h1 h2
  have hja : ospath_join lp "a.txt" = lp ++ "/" ++ "a.txt" :=
    ospath_join_concat lp "a.txt" h1 h2 (by decide)
  have hjs : ospath_join lp "sub" = lp ++ "/" ++ "sub" :=
    ospath_join_concat lp "sub" h1 h2 (by decide)
  have hsub_ne : lp ++ "/" ++ "sub" ≠ "" := append_ne_empty_right _ _ (by decide)
  have hsub_end : pyEndswith (lp ++ "/" ++ "sub") "/" = false := by
    apply Bool.eq_false_iff.mpr
    intro hcon
    rw [pyEndswith_slash_iff, String.data_append,
      getLast?_append_right _ _ (by decide)] at hcon
    exact absurd hcon (by decide)
  have hjb : ospath_join (ospath_join lp "sub") "b.txt" =
      lp ++ "/" ++ ("sub" ++ "/" ++ "b.txt") := by
    rw [hjs, ospath_join_concat _ "b.txt" hsub_ne hsub_end (by decide)]
    apply string_data_inj
    simp [String.data_append]
  have hreq : hasRequirementsTxt
      [FSTree.file "a.txt", FSTree.dir "sub" [FSTree.file "b.txt"]] = false := rfl
  have hkept : List.filter (fun t => fname t != "requirements.txt" && fname t != "test")
      [FSTree.file "a.txt", FSTree.dir "sub" [FSTree.file "b.txt"]] =
      [FSTree.file "a.txt", FSTree.dir "sub" [FSTree.file "b.txt"]] := rfl
  unfold create_zip_entries
  simp only [hreq, hkept]
  rw [show filesUnderList lp [FSTree.file "a.txt", FSTree.dir "sub" [FSTree.file "b.txt"]] =
      [ospath_join lp "a.txt", ospath_join (ospath_join lp "sub") "b.txt"] from by
    simp [filesUnderList, filesUnder]]
  rw [hja, hjb]
  simp only [Bool.false_eq_true, if_false, List.append_nil, List.map_cons, List.map_nil,
    zip_path_of_noreq_concat]
  rw [show ("sub" ++ "/" ++ "b.txt" : String) = "sub/b.txt" from by decide]

/-- Claim C3 witness: the theorem applied at a concrete implementation
root. -/
theorem claim_C3_witness :
    create_zip_entries "lambda_code/cloudformation/Tags" "out"
      [FSTree.file "a.txt", FSTree.dir "sub" [FSTree.file "b.txt"]] [] =
      ["a.txt", "sub/b.txt"] :=
  claim_C3 "lambda_code/cloudformation/Tags" "out" [] (by decide) (by decide)

/-- The witness of a `head?` value is a member. -/
theorem mem_of_head?_eq {l : List Char} {c : Char} (h : l.head? = some c) : c ∈ l := by
  cases l with
  | nil => simp at h
  | cons a as =>
    simp only [List.head?_cons, Option.some.injEq] at h
    subst h
    exact List.mem_cons_self a as

/-- The witness of a `getLast?` value is a member. -/
theorem mem_of_getLast?_eq {l : List Char} {c : Char} (h : l.getLast? = some c) : c ∈ l := by
  obtain ⟨hne, hc⟩ := List.mem_getLast?_eq_getLast (Option.mem_def.mpr h)
  exact hc ▸ List.getLast_mem hne

/-- `head?` of an append with a non-empty left part. -/
theorem head?_append_left (l₁ l₂ : List Char) (h : l₁ ≠ []) :
    (l₁ ++ l₂).head? = l₁.head? := by
  cases l₁ with
  | nil => exact absurd rfl h
  | cons a as => rfl

/-- `getLast?` seen through a non-empty suffix. -/
theorem getLast?_of_suffix {s t : List Char} (h : s <:+ t) (hs : s ≠ []) :
    t.getLast? = s.getLast? := by
  obtain ⟨pre, rfl⟩ := h
  exact getLast?_append_right pre s hs

/-- `takeWhile` stops exactly at the first failing element. -/
theorem takeWhile_append_stop (p : Char → Bool) :
    ∀ (l₁ : List Char) (x : Char) (l₂ : List Char),
      (∀ c ∈ l₁, p c = true) → p x = false →
      (l₁ ++ x :: l₂).takeWhile p = l₁
  | [], x, l₂, _, hx => by simp [List.takeWhile_cons, hx]
  | a :: as, x, l₂, h, hx => by
    have ha := h a (List.mem_cons_self a as)
    simp only [List.cons_append, List.takeWhile_cons, ha, if_true]
    rw [takeWhile_append_stop p as x l₂ (fun c hc => h c (List.mem_cons_of_mem a hc)) hx]

/-- `dropWhile` drops exactly up to the first failing element. -/
theorem dropWhile_append_stop (p : Char → Bool) :
    ∀ (l₁ : List Char) (x : Char) (l₂ : List Char),
      (∀ c ∈ l₁, p c = true) → p x = false →
      (l₁ ++ x :: l₂).dropWhile p = x :: l₂
  | [], x, l₂, _, hx => by simp [List.dropWhile_cons, hx]
  | a :: as, x, l₂, h, hx => by
    have ha := h a (List.mem_cons_self a as)
    simp only [List.cons_append, List.dropWhile_cons, ha, if_true]
    exact dropWhile_append_stop p as x l₂ (fun c hc => h c (List.mem_cons_of_mem a hc)) hx

/-- `dropWhile` is the identity when the first element already fails. -/
theorem dropWhile_head_false (p : Char → Bool) (l : List Char)
    (h : ∀ c, l.head? = some c → p c = false) : l.dropWhile p = l := by
  cases l with
  | nil => rfl
  | cons a as => simp [List.dropWhile_cons, h a rfl]

/-- `os.path.split` of a separator-free string: empty head, the string as
tail. -/
theorem ospath_split_no_slash (t : String) (ht : '/' ∉ t.data) :
    ospath_split t = ("", t) := by
  have hall : ∀ c ∈ t.data.reverse, (c != '/') = true := by
    intro c hc
    exact bne_iff_ne.mpr (fun he => ht (he ▸ List.mem_reverse.mp hc))
  have h1 : t.data.reverse.takeWhile (fun c => c != '/') = t.data.reverse :=
    List.takeWhile_eq_self_iff.mpr hall
  have h2 : t.data.reverse.dropWhile (fun c => c != '/') = [] :=
    List.dropWhile_eq_nil_iff.mpr hall
  unfold ospath_split
  simp only [h1, h2, List.isEmpty_nil, Bool.true_or, if_true, List.reverse_nil,
    List.reverse_reverse]

/-- `os.path.split` of `head ++ "/" ++ tail` with a well-formed head (no
leading or trailing separator) and a separator-free tail. -/
theorem ospath_split_concat (l t : String) (hl : l.data ≠ [])
    (hl1 : l.data.head? ≠ some '/') (hl2 : l.data.getLast? ≠ some '/')
    (ht : '/' ∉ t.data) :
    ospath_split (l ++ "/" ++ t) = (l, t) := by
  have hr : ((l ++ "/") ++ t).data.reverse = t.data.reverse ++ '/' :: l.data.reverse := by
    show ((l.data ++ ['/']) ++ t.data).reverse = t.data.reverse ++ '/' :: l.data.reverse
    rw [List.reverse_append, List.reverse_append]
    rfl
  have htall : ∀ c ∈ t.data.reverse, ((fun c => c != '/') c) = true := by
    intro c hc
    exact bne_iff_ne.mpr (fun he => ht (he ▸ List.mem_reverse.mp hc))
  have hslash : ((fun c => c != '/') '/') = false := by decide
  have h1 : ((l ++ "/") ++ t).data.reverse.takeWhile (fun c => c != '/') = t.data.reverse := by
    rw [hr]
    exact takeWhile_append_stop _ _ _ _ htall hslash
  have h2 : ((l ++ "/") ++ t).data.reverse.dropWhile (fun c => c != '/') =
      '/' :: l.data.reverse := by
    rw [hr]
    exact dropWhile_append_stop _ _ _ _ htall hslash
  -- the head part is non-empty and not all separators
  obtain ⟨c0, hc0⟩ : ∃ c0, l.data.head? = some c0 := by
    cases hld : l.data with
    | nil => exact absurd hld hl
    | cons a as => exact ⟨a, rfl⟩
  have hc0ne : c0 ≠ '/' := fun he => hl1 (he ▸ hc0)
  have hc0mem : c0 ∈ '/' :: l.data.reverse :=
    List.mem_cons_of_mem _ (List.mem_reverse.mpr (mem_of_head?_eq hc0))
  have hallfalse : (('/' :: l.data.reverse).all fun c => c == '/') = false := by
    apply Bool.eq_false_iff.mpr
    intro hall
    exact hc0ne (by simpa using List.all_eq_true.mp hall c0 hc0mem)
  have hdrop : ('/' :: l.data.reverse).dropWhile (fun c => c == '/') = l.data.reverse := by
    rw [List.dropWhile_cons]
    simp only [beq_self_eq_true, if_true]
    apply dropWhile_head_false
    intro c hc
    rw [List.head?_reverse] at hc
    apply beq_eq_false_iff_ne.mpr
    exact fun he => hl2 (he ▸ hc)
  unfold ospath_split
  simp only [h1, h2, List.isEmpty_cons, hallfalse, Bool.false_or, Bool.or_false,
    Bool.false_eq_true, if_false, hdrop, List.reverse_reverse]

/-- `strJoin` over a list extended by one element on the right. -/
theorem strJoin_append_single (sep : String) :
    ∀ (init : List String) (t : String), init ≠ [] →
      strJoin sep (init ++ [t]) = strJoin sep init ++ sep ++ t
  | [], _, h => absurd rfl h
  | [x], t, _ => by simp [strJoin]
  | x :: y :: xs, t, _ => by
    have ih := strJoin_append_single sep (y :: xs) t (by simp)
    simp only [List.cons_append] at ih ⊢
    simp only [strJoin]
    rw [ih]
    apply string_data_inj
    simp [String.data_append]

/-- The join of non-empty separator-free segments is non-empty and neither
starts nor ends with the separator. -/
theorem strJoin_slash_facts :
    ∀ segs : List String, segs ≠ [] → (∀ s ∈ segs, s.data ≠ [] ∧ '/' ∉ s.data) →
      (strJoin "/" segs).data ≠ [] ∧
      (strJoin "/" segs).data.head? ≠ some '/' ∧
      (strJoin "/" segs).data.getLast? ≠ some '/'
  | [], h, _ => absurd rfl h
  | [x], _, hv => by
    have hx := hv x (List.mem_cons_self x [])
    simp only [strJoin]
    exact ⟨hx.1, fun hh => hx.2 (mem_of_head?_eq hh),
      fun hh => hx.2 (mem_of_getLast?_eq hh)⟩
  | x :: y :: xs, _, hv => by
    have hx := hv x (List.mem_cons_self _ _)
    have ih := strJoin_slash_facts (y :: xs) (by simp)
      (fun s hs => hv s (List.mem_cons_of_mem _ hs))
    simp only [strJoin]
    refine ⟨?_, ?_, ?_⟩
    · rw [String.data_append]
      intro hnil
      exact ih.1 (List.append_eq_nil.mp hnil).2
    · rw [String.data_append, String.data_append, List.append_assoc,
        head?_append_left _ _ hx.1]
      exact fun hh => hx.2 (mem_of_head?_eq hh)
    · rw [String.data_append, getLast?_append_right _ _ ih.1]
      exact ih.2.2

/-- A join of non-empty segments is at least as long as the number of
segments. -/
theorem strJoin_length_ge :
    ∀ segs : List String, (∀ s ∈ segs, s.data ≠ []) →
      segs.length ≤ (strJoin "/" segs).length
  | [], _ => by simp [strJoin]
  | [x], h => by
    have hx := List.length_pos.mpr (h x (List.mem_cons_self _ _))
    simp only [strJoin]
    show 1 ≤ x.data.length
    omega
  | x :: y :: xs, h => by
    have ih := strJoin_length_ge (y :: xs) (fun s hs => (h s (List.mem_cons_of_mem _ hs)))
    have hx := List.length_pos.mpr (h x (List.mem_cons_self _ _))
    simp only [strJoin]
    show (x :: y :: xs).length ≤ ((x ++ "/") ++ strJoin "/" (y :: xs)).data.length
    rw [String.data_append, String.data_append, List.length_append, List.length_append]
    have ih' : (y :: xs).length ≤ (strJoin "/" (y :: xs)).data.length := ih
    simp only [List.length_cons] at ih' ⊢
    have h1 : ("/" : String).data.length = 1 := rfl
    omega

/-- Claim C9 witness: the theorem applied to a concrete discovery run with
two classes. -/
theorem claim_C9_witness :
    ({ name := ["m", "A"], lambda_path := "lambda_code/m/A", troposphere_class := 1 }
        : CustomResource).troposphere_class ≠
    ({ name := ["m", "B"], lambda_path := "lambda_code/m/B", troposphere_class := 2 }
        : CustomResource).troposphere_class :=
  claim_C9 "lambda_code" [⟨["m"], "m", "A", 1, true⟩, ⟨["m"], "m", "B", 2, true⟩]
    { name := ["m", "A"], lambda_path := "lambda_code/m/A", troposphere_class := 1 }
    (by decide)
    { name := ["m", "B"], lambda_path := "lambda_code/m/B", troposphere_class := 2 }
    (by decide) (by decide)

/-- The split loop on an empty head returns the accumulator at once. -/
theorem rec_split_path_loop_empty :
    ∀ (fuel : Nat) (acc : List String), rec_split_path_loop fuel "" acc = some acc
  | 0, _ => rfl
  | _ + 1, _ => rfl

/-- Running the split loop on the join of non-empty separator-free
segments peels the segments from the right onto the accumulator. -/
theorem rec_split_path_loop_join :
    ∀ segs : List String, (∀ s ∈ segs, s.data ≠ [] ∧ '/' ∉ s.data) →
      ∀ (fuel : Nat) (acc : List String), segs.length ≤ fuel →
        rec_split_path_loop fuel (strJoin "/" segs) acc = some (segs ++ acc) := by
  intro segs
  induction segs using List.reverseRecOn with
  | nil =>
    intro _ fuel acc _
    simp only [strJoin, List.nil_append]
    exact rec_split_path_loop_empty fuel acc
  | append_singleton init t ih =>
    intro hv fuel acc hlen
    have hvt := hv t (by simp)
    have hvinit : ∀ s ∈ init, s.data ≠ [] ∧ '/' ∉ s.data :=
      fun s hs => hv s (by simp [hs])
    cases fuel with
    | zero =>
      rw [List.length_append] at hlen
      simp at hlen
    | succ f =>
      rcases eq_or_ne init [] with hinit | hinit
      · subst hinit
        rw [List.nil_append]
        have hemp : t.data.isEmpty = false := by
          cases hdt : t.data with
          | nil => exact absurd hdt hvt.1
          | cons a as => rfl
        rw [rec_split_path_loop]
        have hjt : strJoin "/" [t] = t := rfl
        rw [hjt]
        simp only [hemp, Bool.false_eq_true, if_false, ospath_split_no_slash t hvt.2]
        exact rec_split_path_loop_empty f (t :: acc)
      · rw [strJoin_append_single "/" init t hinit]
        obtain ⟨hne, hhead, hlast⟩ := strJoin_slash_facts init hinit hvinit
        have hsplit := ospath_split_concat (strJoin "/" init) t hne hhead hlast hvt.2
        have hdne : ((strJoin "/" init ++ "/") ++ t).data ≠ [] := by
          rw [String.data_append, String.data_append]
          intro hnil
          exact hne (List.append_eq_nil.mp (List.append_eq_nil.mp hnil).1).1
        have hemp : ((strJoin "/" init ++ "/") ++ t).data.isEmpty = false := by
          cases hdt : ((strJoin "/" init ++ "/") ++ t).data with
          | nil => exact absurd hdt hdne
          | cons a as => rfl
        rw [rec_split_path_loop]
        simp only [hemp, Bool.false_eq_true, if_false, hsplit]
        have hflen : init.length ≤ f := by
          rw [List.length_append] at hlen
          simp at hlen
          omega
        rw [ih hvinit f (t :: acc) hflen]
        simp

/-- `rec_split_path` recovers the segments of a normalized relative
path. -/
theorem rec_split_path_join (segs : List String)
    (hv : ∀ s ∈ segs, s.data ≠ [] ∧ '/' ∉ s.data) :
    rec_split_path (strJoin "/" segs) = some segs := by
  unfold rec_split_path
  rw [rec_split_path_loop_join segs hv (strJoin "/" segs).length []
      (strJoin_length_ge segs (fun s hs => (hv s hs).1))]
  simp

/-- Folding `os.path.join` over non-empty separator-free segments starting
from a well-formed accumulator concatenates them all with separators. -/
theorem ospath_join_fold :
    ∀ rest : List String, (∀ s ∈ rest, s.data ≠ [] ∧ '/' ∉ s.data) →
      ∀ acc : String, acc.data ≠ [] → acc.data.getLast? ≠ some '/' →
        rest.foldl ospath_join acc = strJoin "/" (acc :: rest)
  | [], _, acc, _, _ => by simp [strJoin]
  | b :: rest, h, acc, hacc1, hacc2 => by
    have hb := h b (List.mem_cons_self _ _)
    have hrest : ∀ s ∈ rest, s.data ≠ [] ∧ '/' ∉ s.data :=
      fun s hs => h s (List.mem_cons_of_mem _ hs)
    have hjoin : ospath_join acc b = acc ++ "/" ++ b := by
      apply ospath_join_concat
      · intro he
        exact hacc1 (by rw [he])
      · exact Bool.eq_false_iff.mpr
          (fun hce => hacc2 ((pyEndswith_slash_iff acc).mp hce))
      · exact Bool.eq_false_iff.mpr
          (fun hcs => hb.2 (mem_of_head?_eq ((pyStartswith_slash_iff b).mp hcs)))
    rw [List.foldl_cons, hjoin]
    have hne' : (acc ++ "/" ++ b).data ≠ [] := by
      rw [String.data_append]
      intro hnil
      exact hb.1 (List.append_eq_nil.mp hnil).2
    have hlast' : (acc ++ "/" ++ b).data.getLast? ≠ some '/' := by
      rw [String.data_append, getLast?_append_right _ _ hb.1]
      exact fun he => hb.2 (mem_of_getLast?_eq he)
    rw [ospath_join_fold rest hrest (acc ++ "/" ++ b) hne' hlast']
    cases rest with
    | nil => simp [strJoin]
    | cons c cs =>
      simp only [strJoin]
      apply string_data_inj
      simp [String.data_append]

/-- `rec_join_path` on non-empty separator-free segments is the
separator-join. -/
theorem rec_join_path_strJoin :
    ∀ segs : List String, (∀ s ∈ segs, s.data ≠ [] ∧ '/' ∉ s.data) →
      rec_join_path segs = strJoin "/" segs
  | [], _ => rfl
  | [_], _ => rfl
  | x :: y :: xs, h => by
    have hx := h x (List.mem_cons_self _ _)
    show (y :: xs).foldl ospath_join x = _
    rw [ospath_join_fold (y :: xs) (fun s hs => h s (List.mem_cons_of_mem _ hs)) x hx.1
      (fun he => hx.2 (mem_of_getLast?_eq he))]

/-- Claim C4: for every normalized relative path `p` (the separator-join of
non-empty separator-free segments), `rec_join_path (rec_split_path p) = p`
(build.py lines 49-66); in particular `rec_split_path` of the empty string
is the empty list, `rec_join_path` of the empty list is the empty string,
and `rec_join_path` of a single segment is that segment unchanged. -/
theorem claim_C4 :
    (∀ (p : String) (segs : List String),
      (∀ s ∈ segs, s.data ≠ [] ∧ '/' ∉ s.data) → p = strJoin "/" segs →
      ∃ l, rec_split_path p = some l ∧ rec_join_path l = p) ∧
    rec_split_path "" = some [] ∧
    rec_join_path [] = "" ∧
    (∀ x : String, rec_join_path [x] = x) := by
  refine ⟨?_, rfl, rfl, fun x => rfl⟩
  intro p segs hv hp
  subst hp
  exact ⟨segs, rec_split_path_join segs hv, rec_join_path_strJoin segs hv⟩

/-- Claim C4 witness: the round trip on the concrete path `a/b`. -/
theorem claim_C4_witness :
    (∃ l, rec_split_path "a/b" = some l ∧ rec_join_path l = "a/b") ∧
    rec_join_path ["x"] = "x" :=
  ⟨claim_C4.1 "a/b" ["a", "b"] (by decide) (by decide), claim_C4.2.2.2 "x"⟩

/-- One iteration of the split loop on a non-empty relative head strictly
shortens the head and keeps it relative. -/
theorem ospath_split_shrink (p : String) (hne : p.data ≠ [])
    (hrel : p.data.head? ≠ some '/') :
    (ospath_split p).1.data.length < p.data.length ∧
    (ospath_split p).1.data.head? ≠ some '/' := by
  have hlpos : 0 < p.data.length := List.length_pos.mpr hne
  show (if (p.data.reverse.dropWhile (fun c => c != '/')).isEmpty ||
          (p.data.reverse.dropWhile (fun c => c != '/')).all (fun c => c == '/')
        then p.data.reverse.dropWhile (fun c => c != '/')
        else (p.data.reverse.dropWhile (fun c => c != '/')).dropWhile
          (fun c => c == '/')).reverse.length < p.data.length ∧
      (if (p.data.reverse.dropWhile (fun c => c != '/')).isEmpty ||
          (p.data.reverse.dropWhile (fun c => c != '/')).all (fun c => c == '/')
        then p.data.reverse.dropWhile (fun c => c != '/')
        else (p.data.reverse.dropWhile (fun c => c != '/')).dropWhile
          (fun c => c == '/')).reverse.head? ≠ some '/'
  by_cases hcond : ((p.data.reverse.dropWhile (fun c => c != '/')).isEmpty ||
      (p.data.reverse.dropWhile (fun c => c != '/')).all (fun c => c == '/')) = true
  · have hdnil : p.data.reverse.dropWhile (fun c => c != '/') = [] := by
      rcases Bool.or_eq_true_iff.mp hcond with hc | hc
      · exact List.isEmpty_iff.mp hc
      · by_contra hdne
        have hsuf : p.data.reverse.dropWhile (fun c => c != '/') <:+ p.data.reverse :=
          List.dropWhile_suffix _
        have hg : p.data.reverse.getLast? =
            (p.data.reverse.dropWhile (fun c => c != '/')).getLast? :=
          getLast?_of_suffix hsuf hdne
        rw [List.getLast?_reverse] at hg
        obtain ⟨c0, hc0⟩ : ∃ c0,
            (p.data.reverse.dropWhile (fun c => c != '/')).getLast? = some c0 := by
          cases hdt : p.data.reverse.dropWhile (fun c => c != '/') with
          | nil => exact absurd hdt hdne
          | cons a as => exact ⟨_, List.getLast?_eq_getLast_of_ne_nil (by simp)⟩
        have hc0s : c0 = '/' := by
          simpa using List.all_eq_true.mp hc c0 (mem_of_getLast?_eq hc0)
        rw [hg, hc0, hc0s] at hrel
        exact hrel rfl
    rw [if_pos hcond, hdnil]
    exact ⟨by simpa using hlpos, by simp⟩
  · rw [if_neg hcond]
    constructor
    · rw [List.length_reverse]
      rcases hrev : p.data.reverse with _ | ⟨rh, rt⟩
      · exact absurd (by simpa using hrev) hne
      · have hlen : rt.length + 1 = p.data.length := by
          have := List.length_reverse p.data
          rw [hrev] at this
          simpa using this
        by_cases hrh : ((fun c => c != '/') rh) = true
        · rw [List.dropWhile_cons, if_pos hrh]
          have h1 : ((rt.dropWhile (fun c => c != '/')).dropWhile
              (fun c => c == '/')).length ≤ rt.length :=
            le_trans (List.dropWhile_suffix _).sublist.length_le
              (List.dropWhile_suffix _).sublist.length_le
          omega
        · have hrh2 : rh = '/' := by simpa [bne_iff_ne] using hrh
          subst hrh2
          rw [List.dropWhile_cons, if_neg (by simp), List.dropWhile_cons]
          simp only [beq_self_eq_true, if_true]
          have h1 : (rt.dropWhile (fun c => c == '/')).length ≤ rt.length :=
            (List.dropWhile_suffix _).sublist.length_le
          omega
    · by_cases hk : (p.data.reverse.dropWhile (fun c => c != '/')).dropWhile
          (fun c => c == '/') = []
      · rw [hk]
        simp
      · have hks : (p.data.reverse.dropWhile (fun c => c != '/')).dropWhile
            (fun c => c == '/') <:+ p.data.reverse :=
          (List.dropWhile_suffix _).trans (List.dropWhile_suffix _)
        have hg := getLast?_of_suffix hks hk
        rw [List.head?_reverse, ← hg, List.getLast?_reverse]
        exact hrel

/-- The split loop terminates on every relative head, with fuel bounded by
the head length: each iteration strictly shortens the head. -/
theorem rec_split_path_loop_total :
    ∀ (fuel : Nat) (p : String), p.data.length ≤ fuel → p.data.head? ≠ some '/' →
      ∀ acc : List String, ∃ l, rec_split_path_loop fuel p acc = some l
  | 0, p, hlen, _, acc => by
    have hpd : p.data = [] := List.length_eq_zero.mp (Nat.le_zero.mp hlen)
    refine ⟨acc, ?_⟩
    rw [rec_split_path_loop, hpd]
    simp
  | fuel + 1, p, hlen, hrel, acc => by
    by_cases hemp : p.data.isEmpty = true
    · refine ⟨acc, ?_⟩
      rw [rec_split_path_loop]
      simp [hemp]
    · have hne : p.data ≠ [] := fun h => hemp (by rw [h]; rfl)
      obtain ⟨hlt, hrel'⟩ := ospath_split_shrink p hne hrel
      obtain ⟨l, hl⟩ := rec_split_path_loop_total fuel (ospath_split p).1
        (by omega) hrel' ((ospath_split p).2 :: acc)
      refine ⟨l, ?_⟩
      have hempf : p.data.isEmpty = false := Bool.eq_false_iff.mpr hemp
      rw [rec_split_path_loop]
      simp only [hempf, Bool.false_eq_true, if_false]
      exact hl

/-- The split loop never terminates on the POSIX root `"/"`:
`os.path.split` maps `"/"` to itself with an empty tail. -/
theorem rec_split_path_loop_slash :
    ∀ (fuel : Nat) (acc : List String), rec_split_path_loop fuel "/" acc = none
  | 0, _ => rfl
  | fuel + 1, acc => by
    have h1 : ("/" : String).data.isEmpty = false := rfl
    have h2 : ospath_split "/" = ("/", "") := rfl
    rw [rec_split_path_loop]
    simp only [h1, Bool.false_eq_true, if_false, h2]
    exact rec_split_path_loop_slash fuel ("" :: acc)

/-- Claim C10: `rec_split_path` (build.py lines 49-55) terminates for every
relative path — each loop iteration strictly shortens the head, so fuel
equal to the path length suffices — but the relative-path precondition is
necessary: `os.path.split` maps the root `"/"` to itself, so on an
absolute path whose head reduces to the root the loop never terminates
(the fuelled embedding returns `none` for every fuel). -/
theorem claim_C10 :
    (∀ p : String, pyStartswith p "/" = false → ∃ l, rec_split_path p = some l) ∧
    ospath_split "/" = ("/", "") ∧
    (∀ (fuel : Nat) (acc : List String), rec_split_path_loop fuel "/" acc = none) := by
  refine ⟨?_, rfl, rec_split_path_loop_slash⟩
  intro p hp
  have hrel : p.data.head? ≠ some '/' := fun hh =>
    Bool.eq_false_iff.mp hp ((pyStartswith_slash_iff p).mpr hh)
  exact rec_split_path_loop_total p.length p (Nat.le_refl _) hrel []

/-- Claim C10 witness: termination on the relative path `a/b`, divergence
on the root. -/
theorem claim_C10_witness :
    (∃ l, rec_split_path "a/b" = some l) ∧ rec_split_path_loop 5 "/" [] = none :=
  ⟨claim_C10.1 "a/b" (by decide), claim_C10.2.2 5 []⟩

end Build
